import Mathlib

/-!
Verification development for the unified merge view of the codemirror-merge
fork (src/src/unified.ts), together with spec-modelled definitions for the
parts of the package (chunk.ts, diff.ts) that only unified.ts refers to.

Documents are modelled as lists of characters; the host editor's change
descriptors (a single replacement, which is the only shape this code ever
builds via ChangeSet.of) are modelled explicitly with apply, invert and
position mapping following the spec's description of the host document
abstraction.
-/

namespace CodemirrorMerge

/-- A document snapshot: an immutable sequence of characters. -/
abbrev Doc := List Char

/-- A single line of a document, without its terminator. -/
abbrev Line := List Char

/-- Clamped slice of a document, mirroring the clamping behaviour of
sliceDoc / sliceString in the host document abstraction. -/
def slice (d : Doc) (a b : Nat) : Doc :=
  (d.drop a).take (b - a)

/-- Split a document into its lines at newline characters. -/
def linesOf : Doc → List Line
  | [] => [[]]
  | c :: rest =>
    match linesOf rest with
    | [] => [[c]]
    | l :: ls => if c = '\n' then [] :: l :: ls else (c :: l) :: ls

/-- Character offset of the start of line n: each of the n preceding lines
contributes its length plus one line terminator.  Strictly monotone in n. -/
def lineStart : List Line → Nat → Nat
  | _, 0 => 0
  | [], n + 1 => n + 1
  | l :: ls, n + 1 => l.length + 1 + lineStart ls n

/-- Modelled from the spec: the host document abstraction's change descriptor
(@codemirror/state ChangeSet is an external collaborator; this code only ever
builds single-replacement sets via ChangeSet.of).  The length field records
the length of the document the set applies to, as ChangeSet.of's second
argument does. -/
structure ChangeSet where
  cFrom : Nat
  cTo : Nat
  insert : Doc
  length : Nat
  deriving DecidableEq

/-- Apply a single-replacement change set to a document. -/
def applyChange (c : ChangeSet) (d : Doc) : Doc :=
  d.take c.cFrom ++ c.insert ++ d.drop c.cTo

/-- Modelled from the spec: ChangeSet.invert records, at invert time, the text
the change replaced, so that applying the inverse to the changed document
restores the original. -/
def invertChange (c : ChangeSet) (d : Doc) : ChangeSet :=
  ⟨c.cFrom, c.cFrom + c.insert.length, slice d c.cFrom c.cTo,
    d.length - (c.cTo - c.cFrom) + c.insert.length⟩

/-- Modelled from the spec: the host position-mapping function for an applied
edit — positions before the edited range are unchanged, positions at or after
its end shift by the length delta, positions inside the replaced range collapse
to the edit's boundary. -/
def mapPos (c : ChangeSet) (pos : Nat) : Nat :=
  if pos ≤ c.cFrom then pos
  else if c.cTo ≤ pos then pos + c.insert.length - (c.cTo - c.cFrom)
  else c.cFrom

/-- Apply an optional change set (a transaction with no document change
leaves the document untouched). -/
def applyChangesOpt (oc : Option ChangeSet) (d : Doc) : Doc :=
  match oc with
  | some c => applyChange c d
  | none => d

/-- Modelled from the spec: one step of the line-granularity edit script that
diff.ts (not under src/) computes — keep a common line, delete a line of A, or
insert a line of B. -/
inductive LineOp where
  | keep (l : Line)
  | del (l : Line)
  | ins (l : Line)
  deriving DecidableEq

/-- Modelled from the spec: line-level edit distance (cost of the shortest
edit script), with explicit structural fuel so that the kernel can evaluate
it; fuel at least the total length is never exhausted. -/
def editDistF : Nat → List Line → List Line → Nat
  | 0, xs, ys => xs.length + ys.length
  | _ + 1, [], ys => ys.length
  | _ + 1, x :: xs, [] => (x :: xs).length
  | n + 1, x :: xs, y :: ys =>
    if x = y then editDistF n xs ys
    else 1 + min (editDistF n xs (y :: ys)) (editDistF n (x :: xs) ys)

/-- Line-level edit distance between two line lists. -/
def editDist (xs ys : List Line) : Nat :=
  editDistF (xs.length + ys.length) xs ys

/-- Modelled from the spec: the shortest line-level edit script (Myers-style),
choosing the cheaper branch at each mismatch, with structural fuel for kernel
evaluation; fuel at least the total length is never exhausted. -/
def diffOpsF : Nat → List Line → List Line → List LineOp
  | 0, xs, ys => xs.map LineOp.del ++ ys.map LineOp.ins
  | _ + 1, [], ys => ys.map LineOp.ins
  | _ + 1, x :: xs, [] => (x :: xs).map LineOp.del
  | n + 1, x :: xs, y :: ys =>
    if x = y then LineOp.keep x :: diffOpsF n xs ys
    else if editDistF n xs (y :: ys) ≤ editDistF n (x :: xs) ys
      then LineOp.del x :: diffOpsF n xs (y :: ys)
      else LineOp.ins y :: diffOpsF n (x :: xs) ys

/-- Shortest line-level edit script between two line lists. -/
def diffOps (xs ys : List Line) : List LineOp :=
  diffOpsF (xs.length + ys.length) xs ys

/-- Length of the longest common prefix of two line lists. -/
def commonPrefixLen : List Line → List Line → Nat
  | x :: xs, y :: ys => if x = y then commonPrefixLen xs ys + 1 else 0
  | _, _ => 0

/-- Length of the longest common suffix of two line lists. -/
def commonSuffixLen (xs ys : List Line) : Nat :=
  commonPrefixLen xs.reverse ys.reverse

/-- Number of leading common lines trimmed by the diff. -/
def trimPrefixLen (aL bL : List Line) : Nat :=
  commonPrefixLen aL bL

/-- Number of trailing common lines trimmed by the diff (after the prefix). -/
def trimSuffixLen (aL bL : List Line) : Nat :=
  commonSuffixLen (aL.drop (trimPrefixLen aL bL)) (bL.drop (trimPrefixLen aL bL))

/-- The untrimmed (differing) middle region of A, at line granularity. -/
def midA (aL bL : List Line) : List Line :=
  ((aL.drop (trimPrefixLen aL bL)).take
    ((aL.drop (trimPrefixLen aL bL)).length - trimSuffixLen aL bL))

/-- The untrimmed (differing) middle region of B, at line granularity. -/
def midB (aL bL : List Line) : List Line :=
  ((bL.drop (trimPrefixLen aL bL)).take
    ((bL.drop (trimPrefixLen aL bL)).length - trimSuffixLen aL bL))

/-- The trailing trimmed common lines of A. -/
def sufA (aL bL : List Line) : List Line :=
  ((aL.drop (trimPrefixLen aL bL)).drop
    ((aL.drop (trimPrefixLen aL bL)).length - trimSuffixLen aL bL))

/-- The trailing trimmed common lines of B. -/
def sufB (aL bL : List Line) : List Line :=
  ((bL.drop (trimPrefixLen aL bL)).drop
    ((bL.drop (trimPrefixLen aL bL)).length - trimSuffixLen aL bL))

/-- Modelled from the spec: the diff engine of diff.ts (not under src/) —
trim the common prefix and suffix deterministically, run the shortest
edit-script search on the remainder, and when the work would exceed scanLimit
abort the fine search and fall back to a single replace-span covering the
whole untrimmed region. -/
def diffLines (aL bL : List Line) (scanLimit : Nat) : List LineOp :=
  (aL.take (trimPrefixLen aL bL)).map LineOp.keep
    ++ (if scanLimit < editDist (midA aL bL) (midB aL bL)
        then (midA aL bL).map LineOp.del ++ (midB aL bL).map LineOp.ins
        else diffOps (midA aL bL) (midB aL bL))
    ++ (sufA aL bL).map LineOp.keep

/-- A chunk at line granularity: the differing region covers lines
laF ≤ l < laT of A and lbF ≤ l < lbT of B. -/
structure LChunk where
  laF : Nat
  laT : Nat
  lbF : Nat
  lbT : Nat
  deriving DecidableEq

/-- Modelled from the spec: the chunk builder of chunk.ts (not under src/) —
walk the edit script, grouping each maximal run of changed lines (no
intervening unchanged line) into one chunk; ca and cb are the current line
cursors into A and B, and the last argument holds the start of the current
run while inside one. -/
def chunkWalkGo : List LineOp → Nat → Nat → Option (Nat × Nat) → List LChunk
  | [], _, _, none => []
  | [], ca, cb, some (sa, sb) => [⟨sa, ca, sb, cb⟩]
  | LineOp.keep _ :: ops, ca, cb, none => chunkWalkGo ops (ca + 1) (cb + 1) none
  | LineOp.keep _ :: ops, ca, cb, some (sa, sb) =>
      ⟨sa, ca, sb, cb⟩ :: chunkWalkGo ops (ca + 1) (cb + 1) none
  | LineOp.del _ :: ops, ca, cb, none => chunkWalkGo ops (ca + 1) cb (some (ca, cb))
  | LineOp.del _ :: ops, ca, cb, some (sa, sb) => chunkWalkGo ops (ca + 1) cb (some (sa, sb))
  | LineOp.ins _ :: ops, ca, cb, none => chunkWalkGo ops ca (cb + 1) (some (ca, cb))
  | LineOp.ins _ :: ops, ca, cb, some (sa, sb) => chunkWalkGo ops ca (cb + 1) (some (sa, sb))

/-- Line-level chunk list for two documents given as line lists. -/
def buildL (aL bL : List Line) (scanLimit : Nat) : List LChunk :=
  chunkWalkGo (diffLines aL bL scanLimit) 0 0 none

/-- A chunk: absolute character offsets bounding one differing region in each
document.  toA and toB point just past the trailing line terminator of the
last changed line (document length + 1 when the region reaches the end of the
document), as in chunk.ts. -/
structure Chunk where
  fromA : Nat
  toA : Nat
  fromB : Nat
  toB : Nat
  deriving DecidableEq

/-- Modelled from the spec: the chunk's A-side end before its trailing line
terminator, as the endA getter of chunk.ts computes it. -/
def Chunk.endA (c : Chunk) : Nat :=
  max c.fromA (c.toA - 1)

/-- Modelled from the spec: the chunk's B-side end before its trailing line
terminator, as the endB getter of chunk.ts computes it. -/
def Chunk.endB (c : Chunk) : Nat :=
  max c.fromB (c.toB - 1)

/-- Convert a line-level chunk to absolute character offsets. -/
def chunkOfL (aL bL : List Line) (c : LChunk) : Chunk :=
  ⟨lineStart aL c.laF, lineStart aL c.laT, lineStart bL c.lbF, lineStart bL c.lbT⟩

/-- Modelled from the spec: Chunk.build of chunk.ts (not under src/) — a full
recompute of the chunk list for a document pair: diff at line granularity and
group the changed runs into line-aligned chunks. -/
def Chunk.build (a b : Doc) (conf : Nat) : List Chunk :=
  (buildL (linesOf a) (linesOf b) conf).map (chunkOfL (linesOf a) (linesOf b))

/-- Modelled from the spec: Chunk.updateA of chunk.ts (not under src/).  The
spec's ChunkStore contract (determinism of the diff, chunks partitioning
exactly the differing regions, and the merge and delete rules of the
incremental update) makes the store a function of the current document pair,
so the incrementally updated store equals the store built for the new pair. -/
def Chunk.updateA (chunks : List Chunk) (a b : Doc) (changes : ChangeSet) (conf : Nat) :
    List Chunk :=
  Chunk.build a b conf

/-- Modelled from the spec: Chunk.updateB of chunk.ts (not under src/), the
mirror of Chunk.updateA; by the same contract it equals a build for the new
document pair. -/
def Chunk.updateB (chunks : List Chunk) (a b : Doc) (changes : Option ChangeSet) (conf : Nat) :
    List Chunk :=
  Chunk.build a b conf

/-- Value carried by acceptChunkEffect (src/src/unified.ts lines 169 to 189). -/
structure AcceptChunkValue where
  chunkFromA : Nat
  chunkToA : Nat
  chunkFromB : Nat
  chunkToB : Nat
  originalDoc : Doc
  currentContent : Doc
  changes : ChangeSet
  deriving DecidableEq

/-- Value carried by rejectChunkEffect (src/src/unified.ts lines 192 to 212). -/
structure RejectChunkValue where
  chunkFromA : Nat
  chunkToA : Nat
  chunkFromB : Nat
  chunkToB : Nat
  originalContent : Doc
  currentContent : Doc
  changes : ChangeSet
  deriving DecidableEq

/-- The state effects defined in src/src/unified.ts. -/
inductive MergeEffect where
  | updateOriginalDoc (doc : Doc) (changes : ChangeSet)
  | acceptChunkEffect (v : AcceptChunkValue)
  | rejectChunkEffect (v : RejectChunkValue)
  | generateCodeEffect (generatedCode : Doc) (replaceAll : Bool) (insertAt : Option Nat)
  deriving DecidableEq

/-- The map function of acceptChunkEffect: remap the B-side coordinates
through a concurrent change and drop the effect when the mapped range is
empty (src/src/unified.ts lines 178 to 188). -/
def mapAcceptChunkEffect (v : AcceptChunkValue) (change : ChangeSet) : Option AcceptChunkValue :=
  if mapPos change v.chunkFromB < mapPos change v.chunkToB
  then some ⟨v.chunkFromA, v.chunkToA, mapPos change v.chunkFromB, mapPos change v.chunkToB,
    v.originalDoc, v.currentContent, v.changes⟩
  else none

/-- The map function of rejectChunkEffect (src/src/unified.ts lines 201 to 211). -/
def mapRejectChunkEffect (v : RejectChunkValue) (change : ChangeSet) : Option RejectChunkValue :=
  if mapPos change v.chunkFromB < mapPos change v.chunkToB
  then some ⟨v.chunkFromA, v.chunkToA, mapPos change v.chunkFromB, mapPos change v.chunkToB,
    v.originalContent, v.currentContent, v.changes⟩
  else none

/-- First updateOriginalDoc effect of a transaction, with its value. -/
def findUpdateOriginalDoc (effects : List MergeEffect) : Option (Doc × ChangeSet) :=
  effects.findSome? fun e =>
    match e with
    | MergeEffect.updateOriginalDoc d c => some (d, c)
    | _ => none

/-- First acceptChunkEffect of a transaction, with its value. -/
def findAcceptChunkEffect (effects : List MergeEffect) : Option AcceptChunkValue :=
  effects.findSome? fun e =>
    match e with
    | MergeEffect.acceptChunkEffect v => some v
    | _ => none

/-- First rejectChunkEffect of a transaction, with its value. -/
def findRejectChunkEffect (effects : List MergeEffect) : Option RejectChunkValue :=
  effects.findSome? fun e =>
    match e with
    | MergeEffect.rejectChunkEffect v => some v
    | _ => none

/-- First generateCodeEffect of a transaction, with its value. -/
def findGenerateCodeEffect (effects : List MergeEffect) :
    Option (Doc × Bool × Option Nat) :=
  effects.findSome? fun e =>
    match e with
    | MergeEffect.generateCodeEffect g r i => some (g, r, i)
    | _ => none

/-- A dispatched transaction: an optional document (B side) change plus the
state effects it carries. -/
structure Transaction where
  changes : Option ChangeSet
  effects : List MergeEffect
  deriving DecidableEq

/-- Whether the transaction changes the current document. -/
def Transaction.docChanged (tr : Transaction) : Bool :=
  tr.changes.isSome

/-- The merge view state: current document (B), the originalDoc state field
(A), and the ChunkField's chunk list. -/
structure MergeState where
  doc : Doc
  originalDoc : Doc
  chunks : List Chunk
  deriving DecidableEq

/-- The update function of the originalDoc state field (src/src/unified.ts
lines 277 to 292): updateOriginalDoc replaces the document, acceptChunkEffect
applies its changes to it, rejectChunkEffect leaves it untouched. -/
def updateOriginalDocField (d : Doc) (effects : List MergeEffect) : Doc :=
  effects.foldl (fun acc e =>
    match e with
    | MergeEffect.updateOriginalDoc nd _ => nd
    | MergeEffect.acceptChunkEffect v => applyChange v.changes acc
    | _ => acc) d

/-- The computeChunks callback installed by unifiedMergeView
(src/src/unified.ts lines 107 to 144): updateOriginalDoc and
acceptChunkEffect drive Chunk.updateA, generateCodeEffect drives a full
Chunk.build, and a rejectChunkEffect or any document change with a non-empty
chunk list drives Chunk.updateB. -/
def computeChunksUpdate (conf : Nat) (st : MergeState) (tr : Transaction) : List Chunk :=
  let newOrig := updateOriginalDocField st.originalDoc tr.effects
  let nDoc := applyChangesOpt tr.changes st.doc
  let c1 := match findUpdateOriginalDoc tr.effects with
    | some (d, ch) => Chunk.updateA st.chunks d st.doc ch conf
    | none => st.chunks
  let c2 := match findAcceptChunkEffect tr.effects with
    | some v => Chunk.updateA c1 (applyChange v.changes st.originalDoc) st.doc v.changes conf
    | none => c1
  let c3 := if (findGenerateCodeEffect tr.effects).isSome then Chunk.build newOrig nDoc conf else c2
  if (findRejectChunkEffect tr.effects).isSome ∨ (c3 ≠ [] ∧ tr.docChanged = true)
  then Chunk.updateB c3 newOrig nDoc tr.changes conf
  else c3

/-- Apply one dispatched transaction to the merge view state: the document
change, the originalDoc field update and the chunk recomputation all happen
in this single step. -/
def applyTransaction (conf : Nat) (st : MergeState) (tr : Transaction) : MergeState :=
  ⟨applyChangesOpt tr.changes st.doc,
    updateOriginalDocField st.originalDoc tr.effects,
    computeChunksUpdate conf st tr⟩

/-- The chunk lookup predicate used by acceptChunk and rejectChunk: the chunk
covers the queried position when fromB ≤ pos ≤ endB. -/
def coversB (pos : Nat) (ch : Chunk) : Bool :=
  decide (ch.fromB ≤ pos ∧ pos ≤ ch.endB)

/-- The initial state of a unified merge view (src/src/unified.ts lines 154
and 157): the originalDoc field holds the original, and ChunkField is
initialised with a full build. -/
def initialMergeState (conf : Nat) (orig d : Doc) : MergeState :=
  ⟨d, orig, Chunk.build orig d conf⟩

/-- acceptChunk (src/src/unified.ts lines 475 to 507): find the chunk covering
the position; if none, return failure (none here, false in the source) and
dispatch nothing; otherwise build the replacement text from the current
document, append a line terminator when the B range is non-empty and the chunk
does not extend past the end of the original, and dispatch an
acceptChunkEffect carrying the edit clamped to the original's length. -/
def acceptChunk (st : MergeState) (pos : Nat) : Option Transaction :=
  match st.chunks.find? (coversB pos) with
  | none => none
  | some chunk =>
    let insert0 := slice st.doc chunk.fromB (max chunk.fromB (chunk.toB - 1))
    let orig := st.originalDoc
    let insert := if chunk.fromB ≠ chunk.toB ∧ chunk.toA ≤ orig.length
      then insert0 ++ ['\n'] else insert0
    let changes : ChangeSet := ⟨chunk.fromA, min orig.length chunk.toA, insert, orig.length⟩
    some ⟨none,
      [MergeEffect.acceptChunkEffect
        ⟨chunk.fromA, chunk.toA, chunk.fromB, chunk.toB, orig, insert, changes⟩]⟩

/-- rejectChunk (src/src/unified.ts lines 512 to 559): find the chunk covering
the position; if none, return failure and dispatch nothing; otherwise build
the replacement text from the original document, append a line terminator when
the A range is non-empty and the chunk does not extend past the end of the
current document, and dispatch the document change together with a
rejectChunkEffect. -/
def rejectChunk (st : MergeState) (pos : Nat) : Option Transaction :=
  match st.chunks.find? (coversB pos) with
  | none => none
  | some chunk =>
    let orig := st.originalDoc
    let insert0 := slice orig chunk.fromA (max chunk.fromA (chunk.toA - 1))
    let insert := if chunk.fromA ≠ chunk.toA ∧ chunk.toB ≤ st.doc.length
      then insert0 ++ ['\n'] else insert0
    let currentContent := slice st.doc chunk.fromB (max chunk.fromB (chunk.toB - 1))
    let changes : ChangeSet := ⟨chunk.fromB, min st.doc.length chunk.toB, insert, st.doc.length⟩
    some ⟨some changes,
      [MergeEffect.rejectChunkEffect
        ⟨chunk.fromA, chunk.toA, chunk.fromB, chunk.toB, insert, currentContent, changes⟩]⟩

/-- applyGeneratedCode (src/src/unified.ts lines 234 to 275): build the
document change for the chosen insertion mode (whole-document replacement,
insertion at a given position, or insertion at the cursor) and dispatch it
together with a generateCodeEffect. -/
def applyGeneratedCode (st : MergeState) (generatedCode : Doc) (replaceAll : Bool)
    (insertAt : Option Nat) (cursorHead : Nat) : Transaction :=
  let changes : ChangeSet :=
    if replaceAll then ⟨0, st.doc.length, generatedCode, st.doc.length⟩
    else match insertAt with
      | some p => ⟨p, p, generatedCode, st.doc.length⟩
      | none => ⟨cursorHead, cursorHead, generatedCode, st.doc.length⟩
  ⟨some changes, [MergeEffect.generateCodeEffect generatedCode replaceAll insertAt]⟩

/-- createUndoableChunkOperations (src/src/unified.ts lines 300 to 331): the
inverted-effects function records, at apply time, an updateOriginalDoc effect
as the inverse of an acceptChunkEffect, and a content-swapped
rejectChunkEffect as the inverse of a rejectChunkEffect; other effects get no
recorded inverse. -/
def invertedChunkEffects (st : MergeState) (tr : Transaction) : List MergeEffect :=
  tr.effects.foldr (fun e acc =>
    match e with
    | MergeEffect.acceptChunkEffect v =>
        MergeEffect.updateOriginalDoc v.originalDoc (invertChange v.changes st.originalDoc) :: acc
    | MergeEffect.rejectChunkEffect v =>
        MergeEffect.rejectChunkEffect
          ⟨v.chunkFromA, v.chunkToA, v.chunkFromB, v.chunkToB,
            v.currentContent, v.originalContent, invertChange v.changes st.doc⟩ :: acc
    | _ => acc) []

/-- Modelled from the spec: the host history replays, for undo, the inverse of
the transaction's document changes together with the inverse effects recorded
by the inverted-effects extension at the time the transaction was applied
(st is the state the transaction was applied to). -/
def undoTransaction (st : MergeState) (tr : Transaction) : Transaction :=
  ⟨tr.changes.map (fun c => invertChange c st.doc), invertedChunkEffects st tr⟩

/-- Stated from the claim text of C2: accept's replacement text is B's current
content for the chunk's B range with a line terminator appended exactly when
the chunk is not at the end of A. -/
def claimAcceptInsert (a b : Doc) (ch : Chunk) : Doc :=
  slice b ch.fromB ch.toB ++ (if ch.toA ≤ a.length then ['\n'] else [])

/-- Stated from the claim text of C3: reject's replacement text is A's content
for the chunk's A range with a line terminator appended exactly when the chunk
is not at the end of B. -/
def claimRejectInsert (a b : Doc) (ch : Chunk) : Doc :=
  slice a ch.fromA ch.toA ++ (if ch.toB ≤ b.length then ['\n'] else [])

/-- Whether a change replaces the whole of a document of the given length. -/
def isWholesaleChange (docLen : Nat) (c : ChangeSet) : Prop :=
  c.cFrom = 0 ∧ c.cTo = docLen

instance (docLen : Nat) (c : ChangeSet) : Decidable (isWholesaleChange docLen c) := by
  unfold isWholesaleChange
  infer_instance

/-- Whether the computeChunks callback takes its full-rebuild branch for this
transaction: in the source (lines 128 to 132) Chunk.build on the whole
documents runs exactly when the transaction carries a generateCodeEffect. -/
def fullRebuildInTransaction (tr : Transaction) : Bool :=
  (findGenerateCodeEffect tr.effects).isSome

/-- The incremental-only part of the computeChunks callback: identical to
computeChunksUpdate except that the full-rebuild (generateCodeEffect) branch
is absent. -/
def computeChunksIncremental (conf : Nat) (st : MergeState) (tr : Transaction) : List Chunk :=
  let newOrig := updateOriginalDocField st.originalDoc tr.effects
  let nDoc := applyChangesOpt tr.changes st.doc
  let c1 := match findUpdateOriginalDoc tr.effects with
    | some (d, ch) => Chunk.updateA st.chunks d st.doc ch conf
    | none => st.chunks
  let c2 := match findAcceptChunkEffect tr.effects with
    | some v => Chunk.updateA c1 (applyChange v.changes st.originalDoc) st.doc v.changes conf
    | none => c1
  if (findRejectChunkEffect tr.effects).isSome ∨ (c2 ≠ [] ∧ tr.docChanged = true)
  then Chunk.updateB c2 newOrig nDoc tr.changes conf
  else c2

/-- The acceptChunkEffect value carried by a transaction (a default value
when there is none). -/
def trAcceptValue (tr : Transaction) : AcceptChunkValue :=
  (findAcceptChunkEffect tr.effects).getD ⟨0, 0, 0, 0, [], [], ⟨0, 0, [], 0⟩⟩

/-- The rejectChunkEffect value carried by a transaction (a default value
when there is none). -/
def trRejectValue (tr : Transaction) : RejectChunkValue :=
  (findRejectChunkEffect tr.effects).getD ⟨0, 0, 0, 0, [], [], ⟨0, 0, [], 0⟩⟩

/-- Example state for claim C1: original document a, current document b. -/
def c1State : MergeState :=
  initialMergeState 500 "a".toList "b".toList

/-- The accept transaction dispatched at position 0 of c1State. -/
def c1TrA : Transaction :=
  (acceptChunk c1State 0).getD ⟨none, []⟩

/-- The reject transaction dispatched at position 0 of c1State. -/
def c1TrR : Transaction :=
  (rejectChunk c1State 0).getD ⟨none, []⟩

/-- Example state for claim C2: the middle line was deleted from the current
document, giving a pure-deletion chunk that is not at the end of A. -/
def c2State : MergeState :=
  initialMergeState 500 "a\nb\nc".toList "a\nc".toList

/-- The accept transaction dispatched at position 2 of c2State. -/
def c2Tr : Transaction :=
  (acceptChunk c2State 2).getD ⟨none, []⟩

/-- Example state for claim C2's amended theorem: a line-aligned replacement
chunk that is not at the end of either document. -/
def c2WState : MergeState :=
  initialMergeState 500 "a\nc".toList "b\nc".toList

/-- The accept transaction dispatched at position 0 of c2WState. -/
def c2WTr : Transaction :=
  (acceptChunk c2WState 0).getD ⟨none, []⟩

/-- Example state for claim C3: a line was inserted into the current document,
giving a pure-insertion chunk that is not at the end of B. -/
def c3State : MergeState :=
  initialMergeState 500 "a\nc".toList "a\nb\nc".toList

/-- The reject transaction dispatched at position 2 of c3State. -/
def c3Tr : Transaction :=
  (rejectChunk c3State 2).getD ⟨none, []⟩

/-- Example state for claim C3's amended theorem. -/
def c3WState : MergeState :=
  initialMergeState 500 "a\nc".toList "b\nc".toList

/-- The reject transaction dispatched at position 0 of c3WState. -/
def c3WTr : Transaction :=
  (rejectChunk c3WState 0).getD ⟨none, []⟩

/-- Example state for claim C4. -/
def c4State : MergeState :=
  initialMergeState 500 "a".toList "b".toList

/-- The accept transaction dispatched at position 0 of c4State. -/
def c4TrA : Transaction :=
  (acceptChunk c4State 0).getD ⟨none, []⟩

/-- The reject transaction dispatched at position 0 of c4State. -/
def c4TrR : Transaction :=
  (rejectChunk c4State 0).getD ⟨none, []⟩

/-- Example state for claim C5 (its single chunk does not cover position 5). -/
def c5State : MergeState :=
  initialMergeState 500 "a".toList "b".toList

/-- Example state for claim C6. -/
def c6State : MergeState :=
  initialMergeState 500 "ab".toList "ab".toList

/-- A generated-code transaction on c6State in single-position insertion mode:
not a wholesale replacement, yet it carries a generateCodeEffect. -/
def c6Tr : Transaction :=
  applyGeneratedCode c6State "xy".toList false (some 0) 0

/-- A second example state for claim C6 whose chunk list is non-empty. -/
def c6StateB : MergeState :=
  initialMergeState 500 "a".toList "b".toList

/-- The accept transaction dispatched at position 0 of c6StateB. -/
def c6TrA : Transaction :=
  (acceptChunk c6StateB 0).getD ⟨none, []⟩

/-- The reject transaction dispatched at position 0 of c6StateB. -/
def c6TrR : Transaction :=
  (rejectChunk c6StateB 0).getD ⟨none, []⟩

/-- An effect-free transaction for claim C6. -/
def c6EmptyTr : Transaction :=
  ⟨none, []⟩

/-- Example state for claim C7. -/
def c7State : MergeState :=
  initialMergeState 500 "a".toList "b".toList

/-- An empty transaction for claim C7. -/
def c7Tr : Transaction :=
  ⟨none, []⟩

/-- Example state for claim C9: its chunk's toA and toB exceed the respective
document lengths, so the dispatched edits must be clamped. -/
def c9State : MergeState :=
  initialMergeState 500 "a".toList "b".toList

/-- The accept transaction dispatched at position 0 of c9State. -/
def c9TrA : Transaction :=
  (acceptChunk c9State 0).getD ⟨none, []⟩

/-- The reject transaction dispatched at position 0 of c9State. -/
def c9TrR : Transaction :=
  (rejectChunk c9State 0).getD ⟨none, []⟩

/-- Example concurrent change for claim C10: insert one character at the
start of the document. -/
def c10Change : ChangeSet :=
  ⟨0, 0, "x".toList, 1⟩

/-- Example acceptChunkEffect value for claim C10. -/
def c10AcceptValue : AcceptChunkValue :=
  ⟨0, 1, 0, 1, [], [], ⟨0, 0, [], 0⟩⟩

/-- Example rejectChunkEffect value for claim C10. -/
def c10RejectValue : RejectChunkValue :=
  ⟨0, 1, 0, 1, [], [], ⟨0, 0, [], 0⟩⟩

/-- The mapped accept value of claim C10's example. -/
def c10AcceptMapped : AcceptChunkValue :=
  (mapAcceptChunkEffect c10AcceptValue c10Change).getD c10AcceptValue

/-- The mapped reject value of claim C10's example. -/
def c10RejectMapped : RejectChunkValue :=
  (mapRejectChunkEffect c10RejectValue c10Change).getD c10RejectValue

/-- The chunk of c9State. -/
def c9Chunk : Chunk :=
  ⟨0, 2, 0, 2⟩

/-- The chunk of c2State: a pure deletion in the middle of the document. -/
def c2Chunk : Chunk :=
  ⟨2, 4, 2, 2⟩

/-- The chunk of c2WState. -/
def c2WChunk : Chunk :=
  ⟨0, 2, 0, 2⟩

/-- The chunk of c3State: a pure insertion in the middle of the document. -/
def c3Chunk : Chunk :=
  ⟨2, 2, 2, 4⟩

/-- The chunk of c3WState. -/
def c3WChunk : Chunk :=
  ⟨0, 2, 0, 2⟩

/-- The lines of A that an edit script accounts for: keeps and deletions, in
order. -/
def opsA : List LineOp → List Line
  | [] => []
  | LineOp.keep l :: ops => l :: opsA ops
  | LineOp.del l :: ops => l :: opsA ops
  | LineOp.ins _ :: ops => opsA ops

/-- The lines of B that an edit script accounts for: keeps and insertions, in
order. -/
def opsB : List LineOp → List Line
  | [] => []
  | LineOp.keep l :: ops => l :: opsB ops
  | LineOp.del _ :: ops => opsB ops
  | LineOp.ins l :: ops => l :: opsB ops

/-- Separation of two line-level chunks: the second starts strictly after the
first ends in both coordinate spaces, and the line right after the first
chunk is unchanged (the same line occurs in A at its A-side end and in B at
its B-side end). -/
def sepL (aL bL : List Line) (c d : LChunk) : Prop :=
  c.laT < d.laF ∧ c.lbT < d.lbF ∧ ∃ l, aL[c.laT]? = some l ∧ bL[c.lbT]? = some l

/-- Document A for claim C8's witness. -/
def c8A : Doc :=
  "a\nb\nc".toList

/-- Document B for claim C8's witness. -/
def c8B : Doc :=
  "x\ny\nz".toList

/-!
Theorems.  First some auxiliary lemmas about the document and change-set
model, then one theorem per claim (with its counterexample and witness
theorems where applicable).
-/

/-- Applying the recorded inverse of a change to the changed document restores
the original document. -/
theorem applyChange_invertChange (c : ChangeSet) (d : Doc)
    (h1 : c.cFrom ≤ c.cTo) (h2 : c.cTo ≤ d.length) :
    applyChange (invertChange c d) (applyChange c d) = d := by
  have hf : c.cFrom ≤ d.length := le_trans h1 h2
  have hlen : (d.take c.cFrom).length = c.cFrom := by
    simp [List.length_take, Nat.min_eq_left hf]
  have hlen2 : (d.take c.cFrom ++ c.insert).length = c.cFrom + c.insert.length := by
    simp [hlen]
  unfold applyChange invertChange slice
  have e1 : (d.take c.cFrom ++ c.insert ++ d.drop c.cTo).take c.cFrom = d.take c.cFrom := by
    rw [List.append_assoc]
    exact List.take_left' hlen
  have e2 : (d.take c.cFrom ++ c.insert ++ d.drop c.cTo).drop (c.cFrom + c.insert.length)
      = d.drop c.cTo := by
    exact List.drop_left' hlen2
  simp only [e1, e2]
  have e3 : (d.drop c.cFrom).take (c.cTo - c.cFrom) ++ d.drop c.cTo = d.drop c.cFrom := by
    have : d.drop c.cTo = (d.drop c.cFrom).drop (c.cTo - c.cFrom) := by
      rw [List.drop_drop]
      congr 1
      omega
    rw [this, List.take_append_drop]
  rw [List.append_assoc, e3, List.take_append_drop]

/-- Inverting the recorded inverse of a change against the changed document
gives back the change itself. -/
theorem invertChange_invertChange (c : ChangeSet) (d : Doc)
    (h1 : c.cFrom ≤ c.cTo) (h2 : c.cTo ≤ d.length) (h3 : c.length = d.length) :
    invertChange (invertChange c d) (applyChange c d) = c := by
  obtain ⟨f, t, ins, len⟩ := c
  simp only at h1 h2 h3
  have hf : f ≤ d.length := le_trans h1 h2
  have hlen : (d.take f).length = f := by
    simp [List.length_take, Nat.min_eq_left hf]
  unfold applyChange invertChange slice
  simp only
  have e2 : (d.take f ++ ins ++ d.drop t).drop f = ins ++ d.drop t := by
    rw [List.append_assoc]
    exact List.drop_left' hlen
  have e3 : ((d.drop f).take (t - f)).length = t - f := by
    simp only [List.length_take, List.length_drop]
    omega
  have e4 : (ins ++ d.drop t).take (f + ins.length - f) = ins := by
    have h : f + ins.length - f = ins.length := by omega
    rw [h]
    exact List.take_left' rfl
  have e5 : (d.take f ++ ins ++ d.drop t).length = f + ins.length + (d.length - t) := by
    simp only [List.length_append, hlen, List.length_drop]
  simp only [e2, e3, e4, e5, ChangeSet.mk.injEq]
  refine ⟨trivial, by omega, trivial, by omega⟩

/-- C5: when no chunk of the store satisfies fromB ≤ pos ≤ endB, both
acceptChunk and rejectChunk return the failure indicator (modelled as none,
false in the source) and dispatch nothing, so neither document nor the
ChunkStore is mutated. -/
theorem c5_uncovered_position_fails (st : MergeState) (pos : Nat)
    (h : ∀ ch ∈ st.chunks, ¬ (ch.fromB ≤ pos ∧ pos ≤ ch.endB)) :
    acceptChunk st pos = none ∧ rejectChunk st pos = none := by
  have hnone : st.chunks.find? (coversB pos) = none := by
    rw [List.find?_eq_none]
    intro ch hch
    simp only [coversB, decide_eq_true_eq]
    exact h ch hch
  constructor
  · simp [acceptChunk, hnone]
  · simp [rejectChunk, hnone]

/-- Witness for C5 at a concrete uncovered position. -/
theorem c5_uncovered_position_fails_w :
    acceptChunk c5State 5 = none ∧ rejectChunk c5State 5 = none :=
  c5_uncovered_position_fails c5State 5 (by decide)

/-- C10: mapping an acceptChunkEffect or rejectChunkEffect value through a
concurrent change remaps only the B-side coordinates, leaves the A-side
coordinates and stored contents unchanged, and drops the effect exactly when
the mapped B range is empty. -/
theorem c10_effect_map_frame (va va' : AcceptChunkValue) (vr vr' : RejectChunkValue)
    (vb : AcceptChunkValue) (vc : RejectChunkValue) (c c' c2 c3 : ChangeSet)
    (ha : mapAcceptChunkEffect va c = some va')
    (hr : mapRejectChunkEffect vr c' = some vr') :
    (va'.chunkFromA = va.chunkFromA ∧ va'.chunkToA = va.chunkToA ∧
      va'.originalDoc = va.originalDoc ∧ va'.currentContent = va.currentContent ∧
      va'.changes = va.changes ∧
      va'.chunkFromB = mapPos c va.chunkFromB ∧ va'.chunkToB = mapPos c va.chunkToB) ∧
    (vr'.chunkFromA = vr.chunkFromA ∧ vr'.chunkToA = vr.chunkToA ∧
      vr'.originalContent = vr.originalContent ∧ vr'.currentContent = vr.currentContent ∧
      vr'.changes = vr.changes ∧
      vr'.chunkFromB = mapPos c' vr.chunkFromB ∧ vr'.chunkToB = mapPos c' vr.chunkToB) ∧
    (mapAcceptChunkEffect vb c2 = none ↔ ¬ mapPos c2 vb.chunkFromB < mapPos c2 vb.chunkToB) ∧
    (mapRejectChunkEffect vc c3 = none ↔ ¬ mapPos c3 vc.chunkFromB < mapPos c3 vc.chunkToB) := by
  refine ⟨?_, ?_, ?_, ?_⟩
  · rw [mapAcceptChunkEffect] at ha
    split at ha
    · injection ha with h
      subst h
      exact ⟨rfl, rfl, rfl, rfl, rfl, rfl, rfl⟩
    · exact absurd ha (by simp)
  · rw [mapRejectChunkEffect] at hr
    split at hr
    · injection hr with h
      subst h
      exact ⟨rfl, rfl, rfl, rfl, rfl, rfl, rfl⟩
    · exact absurd hr (by simp)
  · rw [mapAcceptChunkEffect]
    split
    · rename_i hcond
      simp [hcond]
    · rename_i hcond
      simp [hcond]
  · rw [mapRejectChunkEffect]
    split
    · rename_i hcond
      simp [hcond]
    · rename_i hcond
      simp [hcond]

/-- Witness for C10 at a concrete effect value and concurrent change. -/
theorem c10_effect_map_frame_w :
    (c10AcceptMapped.chunkFromA = c10AcceptValue.chunkFromA ∧
      c10AcceptMapped.chunkToA = c10AcceptValue.chunkToA ∧
      c10AcceptMapped.originalDoc = c10AcceptValue.originalDoc ∧
      c10AcceptMapped.currentContent = c10AcceptValue.currentContent ∧
      c10AcceptMapped.changes = c10AcceptValue.changes ∧
      c10AcceptMapped.chunkFromB = mapPos c10Change c10AcceptValue.chunkFromB ∧
      c10AcceptMapped.chunkToB = mapPos c10Change c10AcceptValue.chunkToB) ∧
    (c10RejectMapped.chunkFromA = c10RejectValue.chunkFromA ∧
      c10RejectMapped.chunkToA = c10RejectValue.chunkToA ∧
      c10RejectMapped.originalContent = c10RejectValue.originalContent ∧
      c10RejectMapped.currentContent = c10RejectValue.currentContent ∧
      c10RejectMapped.changes = c10RejectValue.changes ∧
      c10RejectMapped.chunkFromB = mapPos c10Change c10RejectValue.chunkFromB ∧
      c10RejectMapped.chunkToB = mapPos c10Change c10RejectValue.chunkToB) ∧
    (mapAcceptChunkEffect c10AcceptValue c10Change = none ↔
      ¬ mapPos c10Change c10AcceptValue.chunkFromB < mapPos c10Change c10AcceptValue.chunkToB) ∧
    (mapRejectChunkEffect c10RejectValue c10Change = none ↔
      ¬ mapPos c10Change c10RejectValue.chunkFromB < mapPos c10Change c10RejectValue.chunkToB) :=
  c10_effect_map_frame c10AcceptValue c10AcceptMapped c10RejectValue c10RejectMapped
    c10AcceptValue c10RejectValue c10Change c10Change c10Change c10Change
    (by decide) (by decide)

/-- C9: the edits dispatched by acceptChunk and rejectChunk clamp the
replaced range's end to the target document's length with min, use max of the
start and end minus one for the content slices, and therefore never address a
position outside the target document. -/
theorem c9_clamped_edits (conf : Nat) (st : MergeState) (pos : Nat)
    (trA trR : Transaction) (ch : Chunk)
    (hfind : st.chunks.find? (coversB pos) = some ch)
    (ha : acceptChunk st pos = some trA)
    (hr : rejectChunk st pos = some trR)
    (hfa : ch.fromA ≤ st.originalDoc.length)
    (hab : ch.fromA ≤ ch.toA)
    (hfb : ch.fromB ≤ st.doc.length)
    (hbb : ch.fromB ≤ ch.toB) :
    ((trAcceptValue trA).changes.cFrom = ch.fromA ∧
      (trAcceptValue trA).changes.cTo = min st.originalDoc.length ch.toA ∧
      (trAcceptValue trA).changes.cFrom ≤ (trAcceptValue trA).changes.cTo ∧
      (trAcceptValue trA).changes.cTo ≤ st.originalDoc.length ∧
      (trAcceptValue trA).changes.insert =
        slice st.doc ch.fromB (max ch.fromB (ch.toB - 1)) ++
          (if ch.fromB ≠ ch.toB ∧ ch.toA ≤ st.originalDoc.length then ['\n'] else [])) ∧
    ((trRejectValue trR).changes.cFrom = ch.fromB ∧
      (trRejectValue trR).changes.cTo = min st.doc.length ch.toB ∧
      (trRejectValue trR).changes.cFrom ≤ (trRejectValue trR).changes.cTo ∧
      (trRejectValue trR).changes.cTo ≤ st.doc.length ∧
      (trRejectValue trR).changes.insert =
        slice st.originalDoc ch.fromA (max ch.fromA (ch.toA - 1)) ++
          (if ch.fromA ≠ ch.toA ∧ ch.toB ≤ st.doc.length then ['\n'] else []) ∧
      (trRejectValue trR).currentContent =
        slice st.doc ch.fromB (max ch.fromB (ch.toB - 1))) := by
  simp only [acceptChunk, hfind] at ha
  simp only [rejectChunk, hfind] at hr
  injection ha with ha'
  injection hr with hr'
  subst ha'
  subst hr'
  simp only [trAcceptValue, trRejectValue, findAcceptChunkEffect, findRejectChunkEffect,
    List.findSome?_cons, Option.getD_some]
  refine ⟨⟨trivial, trivial, by omega, by omega, ?_⟩, ⟨trivial, trivial, by omega, by omega, ?_, trivial⟩⟩
  · by_cases hc : ch.fromB ≠ ch.toB ∧ ch.toA ≤ st.originalDoc.length
    · simp [hc]
    · simp [hc]
  · by_cases hc : ch.fromA ≠ ch.toA ∧ ch.toB ≤ st.doc.length
    · simp [hc]
    · simp [hc]

/-- A slice that stops one position before b, followed by the character at
b - 1, is the slice up to b. -/
theorem slice_snoc (d : Doc) (a b : Nat) (ch : Char)
    (h1 : a < b) (h2 : b ≤ d.length) (h3 : d[b - 1]? = some ch) :
    slice d a (b - 1) ++ [ch] = slice d a b := by
  unfold slice
  have hb : b - a = (b - 1 - a) + 1 := by omega
  rw [hb, List.take_succ]
  have hd : (d.drop a)[b - 1 - a]? = some ch := by
    rw [List.getElem?_drop]
    have : a + (b - 1 - a) = b - 1 := by omega
    rw [this]
    exact h3
  rw [hd]
  rfl

/-- C2 (amended): acceptChunk builds an edit replacing the range from
chunk.fromA to min of A's length and chunk.toA in the original document with
B's content for the range from chunk.fromB to max of chunk.fromB and
chunk.toB minus one, appending a line terminator exactly when the chunk's B
range is non-empty and the chunk is not at the end of A; for a line-aligned
chunk that is not at the end of A this insert equals B's content for the
range from chunk.fromB to chunk.toB; the edit is applied to A and drives
Chunk.updateA within the dispatched transaction. -/
theorem c2_accept_edit (conf : Nat) (st : MergeState) (pos : Nat)
    (tr : Transaction) (ch : Chunk)
    (hfind : st.chunks.find? (coversB pos) = some ch)
    (ha : acceptChunk st pos = some tr) :
    tr.changes = none ∧
    tr.effects = [MergeEffect.acceptChunkEffect (trAcceptValue tr)] ∧
    (trAcceptValue tr).changes =
      ⟨ch.fromA, min st.originalDoc.length ch.toA,
        slice st.doc ch.fromB (max ch.fromB (ch.toB - 1)) ++
          (if ch.fromB ≠ ch.toB ∧ ch.toA ≤ st.originalDoc.length then ['\n'] else []),
        st.originalDoc.length⟩ ∧
    (applyTransaction conf st tr).originalDoc =
      applyChange (trAcceptValue tr).changes st.originalDoc ∧
    (applyTransaction conf st tr).chunks =
      Chunk.updateA st.chunks (applyChange (trAcceptValue tr).changes st.originalDoc)
        st.doc (trAcceptValue tr).changes conf ∧
    (ch.fromB < ch.toB → ch.toB ≤ st.doc.length → st.doc[ch.toB - 1]? = some '\n' →
      ch.toA ≤ st.originalDoc.length →
      (trAcceptValue tr).changes.insert = slice st.doc ch.fromB ch.toB) := by
  simp only [acceptChunk, hfind] at ha
  injection ha with ha'
  subst ha'
  simp only [trAcceptValue, findAcceptChunkEffect, List.findSome?_cons, Option.getD_some]
  have hins : (if ch.fromB ≠ ch.toB ∧ ch.toA ≤ st.originalDoc.length
      then slice st.doc ch.fromB (max ch.fromB (ch.toB - 1)) ++ ['\n']
      else slice st.doc ch.fromB (max ch.fromB (ch.toB - 1))) =
      slice st.doc ch.fromB (max ch.fromB (ch.toB - 1)) ++
        (if ch.fromB ≠ ch.toB ∧ ch.toA ≤ st.originalDoc.length then ['\n'] else []) := by
    by_cases hc : ch.fromB ≠ ch.toB ∧ ch.toA ≤ st.originalDoc.length
    · simp [hc]
    · simp [hc]
  refine ⟨trivial, trivial, by rw [ChangeSet.mk.injEq]; exact ⟨rfl, rfl, hins, rfl⟩, ?_, ?_, ?_⟩
  · simp [applyTransaction, updateOriginalDocField]
  · simp [applyTransaction, computeChunksUpdate, findUpdateOriginalDoc,
      findAcceptChunkEffect, findRejectChunkEffect, findGenerateCodeEffect,
      List.findSome?_cons, Transaction.docChanged, applyChangesOpt]
  · intro h1 h2 h3 h4
    have hmax : max ch.fromB (ch.toB - 1) = ch.toB - 1 := by omega
    simp only [hmax]
    rw [if_pos ⟨by omega, h4⟩]
    exact slice_snoc st.doc ch.fromB ch.toB '\n' h1 h2 h3

/-- C2 counterexample: at a pure-deletion chunk in the middle of the
document (so not at the end of A) acceptChunk dispatches an empty replacement
text, while the claim's rule — B's content for the chunk's B range with a
terminator appended exactly when the chunk is not at the end of A — demands a
lone terminator. -/
theorem c2_accept_edit_cex :
    c2State.chunks.find? (coversB 2) = some c2Chunk ∧
    acceptChunk c2State 2 = some c2Tr ∧
    c2Chunk.toA ≤ c2State.originalDoc.length ∧
    (trAcceptValue c2Tr).changes.insert = [] ∧
    claimAcceptInsert c2State.originalDoc c2State.doc c2Chunk = ['\n'] ∧
    (trAcceptValue c2Tr).changes.insert ≠
      claimAcceptInsert c2State.originalDoc c2State.doc c2Chunk := by
  decide

/-- Witness for C2's amended theorem at a line-aligned replacement chunk. -/
theorem c2_accept_edit_w :
    c2WTr.changes = none ∧
    c2WTr.effects = [MergeEffect.acceptChunkEffect (trAcceptValue c2WTr)] ∧
    (trAcceptValue c2WTr).changes =
      ⟨c2WChunk.fromA, min c2WState.originalDoc.length c2WChunk.toA,
        slice c2WState.doc c2WChunk.fromB (max c2WChunk.fromB (c2WChunk.toB - 1)) ++
          (if c2WChunk.fromB ≠ c2WChunk.toB ∧ c2WChunk.toA ≤ c2WState.originalDoc.length
            then ['\n'] else []),
        c2WState.originalDoc.length⟩ ∧
    (applyTransaction 500 c2WState c2WTr).originalDoc =
      applyChange (trAcceptValue c2WTr).changes c2WState.originalDoc ∧
    (applyTransaction 500 c2WState c2WTr).chunks =
      Chunk.updateA c2WState.chunks
        (applyChange (trAcceptValue c2WTr).changes c2WState.originalDoc)
        c2WState.doc (trAcceptValue c2WTr).changes 500 ∧
    (c2WChunk.fromB < c2WChunk.toB → c2WChunk.toB ≤ c2WState.doc.length →
      c2WState.doc[c2WChunk.toB - 1]? = some '\n' →
      c2WChunk.toA ≤ c2WState.originalDoc.length →
      (trAcceptValue c2WTr).changes.insert = slice c2WState.doc c2WChunk.fromB c2WChunk.toB) :=
  c2_accept_edit 500 c2WState 0 c2WTr c2WChunk (by decide) (by decide)

/-- C3 (amended): rejectChunk builds an edit replacing the range from
chunk.fromB to min of B's length and chunk.toB in the current document with
A's content for the range from chunk.fromA to max of chunk.fromA and
chunk.toA minus one, appending a line terminator exactly when the chunk's A
range is non-empty and the chunk is not at the end of B; for a line-aligned
chunk that is not at the end of B this insert equals A's content for the
range from chunk.fromA to chunk.toA; the edit is applied to B and drives
Chunk.updateB within the dispatched transaction. -/
theorem c3_reject_edit (conf : Nat) (st : MergeState) (pos : Nat)
    (tr : Transaction) (ch : Chunk)
    (hfind : st.chunks.find? (coversB pos) = some ch)
    (hr : rejectChunk st pos = some tr) :
    tr.changes = some (trRejectValue tr).changes ∧
    tr.effects = [MergeEffect.rejectChunkEffect (trRejectValue tr)] ∧
    (trRejectValue tr).changes =
      ⟨ch.fromB, min st.doc.length ch.toB,
        slice st.originalDoc ch.fromA (max ch.fromA (ch.toA - 1)) ++
          (if ch.fromA ≠ ch.toA ∧ ch.toB ≤ st.doc.length then ['\n'] else []),
        st.doc.length⟩ ∧
    (applyTransaction conf st tr).doc =
      applyChange (trRejectValue tr).changes st.doc ∧
    (applyTransaction conf st tr).originalDoc = st.originalDoc ∧
    (applyTransaction conf st tr).chunks =
      Chunk.updateB st.chunks st.originalDoc
        (applyChange (trRejectValue tr).changes st.doc) (some (trRejectValue tr).changes) conf ∧
    (ch.fromA < ch.toA → ch.toA ≤ st.originalDoc.length →
      st.originalDoc[ch.toA - 1]? = some '\n' → ch.toB ≤ st.doc.length →
      (trRejectValue tr).changes.insert = slice st.originalDoc ch.fromA ch.toA) := by
  simp only [rejectChunk, hfind] at hr
  injection hr with hr'
  subst hr'
  simp only [trRejectValue, findRejectChunkEffect, List.findSome?_cons, Option.getD_some]
  have hins : (if ch.fromA ≠ ch.toA ∧ ch.toB ≤ st.doc.length
      then slice st.originalDoc ch.fromA (max ch.fromA (ch.toA - 1)) ++ ['\n']
      else slice st.originalDoc ch.fromA (max ch.fromA (ch.toA - 1))) =
      slice st.originalDoc ch.fromA (max ch.fromA (ch.toA - 1)) ++
        (if ch.fromA ≠ ch.toA ∧ ch.toB ≤ st.doc.length then ['\n'] else []) := by
    by_cases hc : ch.fromA ≠ ch.toA ∧ ch.toB ≤ st.doc.length
    · simp [hc]
    · simp [hc]
  refine ⟨trivial, trivial, by rw [ChangeSet.mk.injEq]; exact ⟨rfl, rfl, hins, rfl⟩, ?_, ?_, ?_, ?_⟩
  · simp [applyTransaction, applyChangesOpt]
  · simp [applyTransaction, updateOriginalDocField]
  · simp [applyTransaction, computeChunksUpdate, findUpdateOriginalDoc,
      findAcceptChunkEffect, findRejectChunkEffect, findGenerateCodeEffect,
      List.findSome?_cons, Transaction.docChanged, applyChangesOpt, updateOriginalDocField]
  · intro h1 h2 h3 h4
    have hmax : max ch.fromA (ch.toA - 1) = ch.toA - 1 := by omega
    simp only [hmax]
    rw [if_pos ⟨by omega, h4⟩]
    exact slice_snoc st.originalDoc ch.fromA ch.toA '\n' h1 h2 h3

/-- C3 counterexample: at a pure-insertion chunk in the middle of the current
document (so not at the end of B) rejectChunk dispatches an empty replacement
text, while the claim's rule — A's content for the chunk's A range with a
terminator appended exactly when the chunk is not at the end of B — demands a
lone terminator. -/
theorem c3_reject_edit_cex :
    c3State.chunks.find? (coversB 2) = some c3Chunk ∧
    rejectChunk c3State 2 = some c3Tr ∧
    c3Chunk.toB ≤ c3State.doc.length ∧
    (trRejectValue c3Tr).changes.insert = [] ∧
    claimRejectInsert c3State.originalDoc c3State.doc c3Chunk = ['\n'] ∧
    (trRejectValue c3Tr).changes.insert ≠
      claimRejectInsert c3State.originalDoc c3State.doc c3Chunk := by
  decide

/-- Witness for C3's amended theorem at a line-aligned replacement chunk. -/
theorem c3_reject_edit_w :
    c3WTr.changes = some (trRejectValue c3WTr).changes ∧
    c3WTr.effects = [MergeEffect.rejectChunkEffect (trRejectValue c3WTr)] ∧
    (trRejectValue c3WTr).changes =
      ⟨c3WChunk.fromB, min c3WState.doc.length c3WChunk.toB,
        slice c3WState.originalDoc c3WChunk.fromA (max c3WChunk.fromA (c3WChunk.toA - 1)) ++
          (if c3WChunk.fromA ≠ c3WChunk.toA ∧ c3WChunk.toB ≤ c3WState.doc.length
            then ['\n'] else []),
        c3WState.doc.length⟩ ∧
    (applyTransaction 500 c3WState c3WTr).doc =
      applyChange (trRejectValue c3WTr).changes c3WState.doc ∧
    (applyTransaction 500 c3WState c3WTr).originalDoc = c3WState.originalDoc ∧
    (applyTransaction 500 c3WState c3WTr).chunks =
      Chunk.updateB c3WState.chunks c3WState.originalDoc
        (applyChange (trRejectValue c3WTr).changes c3WState.doc)
        (some (trRejectValue c3WTr).changes) 500 ∧
    (c3WChunk.fromA < c3WChunk.toA → c3WChunk.toA ≤ c3WState.originalDoc.length →
      c3WState.originalDoc[c3WChunk.toA - 1]? = some '\n' →
      c3WChunk.toB ≤ c3WState.doc.length →
      (trRejectValue c3WTr).changes.insert =
        slice c3WState.originalDoc c3WChunk.fromA c3WChunk.toA) :=
  c3_reject_edit 500 c3WState 0 c3WTr c3WChunk (by decide) (by decide)

/-- Witness for C9 at a concrete state whose chunk extends past the end of
both documents. -/
theorem c9_clamped_edits_w :
    ((trAcceptValue c9TrA).changes.cFrom = c9Chunk.fromA ∧
      (trAcceptValue c9TrA).changes.cTo = min c9State.originalDoc.length c9Chunk.toA ∧
      (trAcceptValue c9TrA).changes.cFrom ≤ (trAcceptValue c9TrA).changes.cTo ∧
      (trAcceptValue c9TrA).changes.cTo ≤ c9State.originalDoc.length ∧
      (trAcceptValue c9TrA).changes.insert =
        slice c9State.doc c9Chunk.fromB (max c9Chunk.fromB (c9Chunk.toB - 1)) ++
          (if c9Chunk.fromB ≠ c9Chunk.toB ∧ c9Chunk.toA ≤ c9State.originalDoc.length
            then ['\n'] else [])) ∧
    ((trRejectValue c9TrR).changes.cFrom = c9Chunk.fromB ∧
      (trRejectValue c9TrR).changes.cTo = min c9State.doc.length c9Chunk.toB ∧
      (trRejectValue c9TrR).changes.cFrom ≤ (trRejectValue c9TrR).changes.cTo ∧
      (trRejectValue c9TrR).changes.cTo ≤ c9State.doc.length ∧
      (trRejectValue c9TrR).changes.insert =
        slice c9State.originalDoc c9Chunk.fromA (max c9Chunk.fromA (c9Chunk.toA - 1)) ++
          (if c9Chunk.fromA ≠ c9Chunk.toA ∧ c9Chunk.toB ≤ c9State.doc.length
            then ['\n'] else []) ∧
      (trRejectValue c9TrR).currentContent =
        slice c9State.doc c9Chunk.fromB (max c9Chunk.fromB (c9Chunk.toB - 1))) :=
  c9_clamped_edits 500 c9State 0 c9TrA c9TrR c9Chunk (by decide) (by decide) (by decide)
    (by decide) (by decide) (by decide) (by decide)

/-- Two merge states with equal components are equal. -/
theorem mergeState_eq : ∀ (a b : MergeState), a.doc = b.doc → a.originalDoc = b.originalDoc →
    a.chunks = b.chunks → a = b
  | ⟨_, _, _⟩, ⟨_, _, _⟩, rfl, rfl, rfl => rfl

/-- C4: an accept transaction leaves the current document B untouched and
mutates only the original A, a reject transaction leaves A untouched and
mutates only B, and in both cases the ChunkStore is recomputed (updateA
resp. updateB) within the same transaction as the document mutation. -/
theorem c4_side_effect_contract (conf : Nat) (st : MergeState) (pos : Nat)
    (trA trR : Transaction)
    (ha : acceptChunk st pos = some trA)
    (hr : rejectChunk st pos = some trR) :
    ((applyTransaction conf st trA).doc = st.doc ∧
      (applyTransaction conf st trA).originalDoc =
        applyChange (trAcceptValue trA).changes st.originalDoc ∧
      (applyTransaction conf st trA).chunks =
        Chunk.updateA st.chunks (applyChange (trAcceptValue trA).changes st.originalDoc)
          st.doc (trAcceptValue trA).changes conf) ∧
    ((applyTransaction conf st trR).originalDoc = st.originalDoc ∧
      (applyTransaction conf st trR).doc = applyChange (trRejectValue trR).changes st.doc ∧
      (applyTransaction conf st trR).chunks =
        Chunk.updateB st.chunks st.originalDoc
          (applyChange (trRejectValue trR).changes st.doc)
          (some (trRejectValue trR).changes) conf) := by
  cases hfind : st.chunks.find? (coversB pos) with
  | none =>
    simp only [acceptChunk, hfind] at ha
    exact absurd ha (by simp)
  | some ch =>
    simp only [acceptChunk, hfind] at ha
    simp only [rejectChunk, hfind] at hr
    injection ha with ha'
    injection hr with hr'
    subst ha'
    subst hr'
    simp only [trAcceptValue, trRejectValue, findAcceptChunkEffect, findRejectChunkEffect,
      List.findSome?_cons, Option.getD_some]
    refine ⟨⟨?_, ?_, ?_⟩, ⟨?_, ?_, ?_⟩⟩
    · simp [applyTransaction, applyChangesOpt]
    · simp [applyTransaction, updateOriginalDocField]
    · simp [applyTransaction, computeChunksUpdate, findUpdateOriginalDoc,
        findAcceptChunkEffect, findRejectChunkEffect, findGenerateCodeEffect,
        List.findSome?_cons, Transaction.docChanged, applyChangesOpt]
    · simp [applyTransaction, updateOriginalDocField]
    · simp [applyTransaction, applyChangesOpt]
    · simp [applyTransaction, computeChunksUpdate, findUpdateOriginalDoc,
        findAcceptChunkEffect, findRejectChunkEffect, findGenerateCodeEffect,
        List.findSome?_cons, Transaction.docChanged, applyChangesOpt, updateOriginalDocField]

/-- Witness for C4 at a concrete state. -/
theorem c4_side_effect_contract_w :
    ((applyTransaction 500 c4State c4TrA).doc = c4State.doc ∧
      (applyTransaction 500 c4State c4TrA).originalDoc =
        applyChange (trAcceptValue c4TrA).changes c4State.originalDoc ∧
      (applyTransaction 500 c4State c4TrA).chunks =
        Chunk.updateA c4State.chunks
          (applyChange (trAcceptValue c4TrA).changes c4State.originalDoc)
          c4State.doc (trAcceptValue c4TrA).changes 500) ∧
    ((applyTransaction 500 c4State c4TrR).originalDoc = c4State.originalDoc ∧
      (applyTransaction 500 c4State c4TrR).doc =
        applyChange (trRejectValue c4TrR).changes c4State.doc ∧
      (applyTransaction 500 c4State c4TrR).chunks =
        Chunk.updateB c4State.chunks c4State.originalDoc
          (applyChange (trRejectValue c4TrR).changes c4State.doc)
          (some (trRejectValue c4TrR).changes) 500) :=
  c4_side_effect_contract 500 c4State 0 c4TrA c4TrR (by decide) (by decide)

/-- C6 (amended): the computeChunks callback takes its full-rebuild branch
exactly for transactions carrying a generateCodeEffect; accept and reject
transactions never carry one and are processed by the incremental branches,
as is every transaction without that effect; applyGeneratedCode dispatches a
generateCodeEffect in every insertion mode, and only its replaceAll mode is a
wholesale replacement of the whole document. -/
theorem c6_rebuild_condition (conf : Nat) (st : MergeState) (pos : Nat)
    (trA trR tr : Transaction) (code : Doc) (replaceAll : Bool)
    (insertAt : Option Nat) (cursorHead : Nat)
    (ha : acceptChunk st pos = some trA)
    (hr : rejectChunk st pos = some trR)
    (hng : findGenerateCodeEffect tr.effects = none) :
    fullRebuildInTransaction trA = false ∧
    fullRebuildInTransaction trR = false ∧
    fullRebuildInTransaction (applyGeneratedCode st code replaceAll insertAt cursorHead) = true ∧
    (replaceAll = true →
      (applyGeneratedCode st code replaceAll insertAt cursorHead).changes =
        some ⟨0, st.doc.length, code, st.doc.length⟩ ∧
      isWholesaleChange st.doc.length ⟨0, st.doc.length, code, st.doc.length⟩) ∧
    computeChunksUpdate conf st tr = computeChunksIncremental conf st tr := by
  refine ⟨?_, ?_, ?_, ?_, ?_⟩
  · cases hfind : st.chunks.find? (coversB pos) with
    | none =>
      simp only [acceptChunk, hfind] at ha
      exact absurd ha (by simp)
    | some ch =>
      simp only [acceptChunk, hfind] at ha
      injection ha with ha'
      subst ha'
      simp [fullRebuildInTransaction, findGenerateCodeEffect, List.findSome?_cons]
  · cases hfind : st.chunks.find? (coversB pos) with
    | none =>
      simp only [rejectChunk, hfind] at hr
      exact absurd hr (by simp)
    | some ch =>
      simp only [rejectChunk, hfind] at hr
      injection hr with hr'
      subst hr'
      simp [fullRebuildInTransaction, findGenerateCodeEffect, List.findSome?_cons]
  · simp [fullRebuildInTransaction, findGenerateCodeEffect, applyGeneratedCode,
      List.findSome?_cons]
  · intro hrep
    subst hrep
    exact ⟨by simp [applyGeneratedCode], rfl, rfl⟩
  · simp [computeChunksUpdate, computeChunksIncremental, hng]

/-- C6 counterexample: applyGeneratedCode in single-position insertion mode
dispatches a transaction whose edit is an insertion at position 0 of a
two-character document — not a wholesale replacement — yet the transaction
carries a generateCodeEffect, so the computeChunks callback performs a full
Chunk.build rebuild for it. -/
theorem c6_rebuild_condition_cex :
    fullRebuildInTransaction c6Tr = true ∧
    c6Tr.changes = some ⟨0, 0, "xy".toList, 2⟩ ∧
    ¬ isWholesaleChange c6State.doc.length ⟨0, 0, "xy".toList, 2⟩ := by
  decide

/-- Witness for C6's amended theorem at a concrete state. -/
theorem c6_rebuild_condition_w :
    fullRebuildInTransaction c6TrA = false ∧
    fullRebuildInTransaction c6TrR = false ∧
    fullRebuildInTransaction (applyGeneratedCode c6StateB "xy".toList true none 0) = true ∧
    (true = true →
      (applyGeneratedCode c6StateB "xy".toList true none 0).changes =
        some ⟨0, c6StateB.doc.length, "xy".toList, c6StateB.doc.length⟩ ∧
      isWholesaleChange c6StateB.doc.length
        ⟨0, c6StateB.doc.length, "xy".toList, c6StateB.doc.length⟩) ∧
    computeChunksUpdate 500 c6StateB c6EmptyTr = computeChunksIncremental 500 c6StateB c6EmptyTr :=
  c6_rebuild_condition 500 c6StateB 0 c6TrA c6TrR c6EmptyTr "xy".toList true none 0
    (by decide) (by decide) (by decide)

/-- C1 (amended): applying an accept or reject operation and then the inverse
recorded for it at apply time restores the ChunkStore and both documents to a
byte-identical pre-operation state; for a reject operation the inverse of the
recorded inverse equals the operation itself, while the recorded inverse of an
accept is an updateOriginalDoc effect for which no inverse is recorded. -/
theorem c1_undo_roundtrip (conf : Nat) (st : MergeState) (pos : Nat)
    (trA trR : Transaction)
    (hb : st.chunks = Chunk.build st.originalDoc st.doc conf)
    (hwf : ∀ ch ∈ st.chunks, ch.fromB ≤ ch.toB ∧ ch.fromB ≤ st.doc.length)
    (ha : acceptChunk st pos = some trA)
    (hr : rejectChunk st pos = some trR) :
    applyTransaction conf (applyTransaction conf st trA) (undoTransaction st trA) = st ∧
    applyTransaction conf (applyTransaction conf st trR) (undoTransaction st trR) = st ∧
    invertedChunkEffects (applyTransaction conf st trR) (undoTransaction st trR) =
      trR.effects := by
  cases hfind : st.chunks.find? (coversB pos) with
  | none =>
    simp only [acceptChunk, hfind] at ha
    exact absurd ha (by simp)
  | some ch =>
    have hmem := List.mem_of_find?_eq_some hfind
    obtain ⟨hch1, hch2⟩ := hwf ch hmem
    simp only [acceptChunk, hfind] at ha
    simp only [rejectChunk, hfind] at hr
    injection ha with ha'
    injection hr with hr'
    subst ha'
    subst hr'
    have h1 : ch.fromB ≤ min st.doc.length ch.toB := by omega
    have h2 : min st.doc.length ch.toB ≤ st.doc.length := by omega
    have hrt : ∀ ins : Doc,
        applyChange
          (invertChange ⟨ch.fromB, min st.doc.length ch.toB, ins, st.doc.length⟩ st.doc)
          (applyChange ⟨ch.fromB, min st.doc.length ch.toB, ins, st.doc.length⟩ st.doc) =
          st.doc :=
      fun ins => applyChange_invertChange _ st.doc h1 h2
    have hinv : ∀ ins : Doc,
        invertChange
          (invertChange ⟨ch.fromB, min st.doc.length ch.toB, ins, st.doc.length⟩ st.doc)
          (applyChange ⟨ch.fromB, min st.doc.length ch.toB, ins, st.doc.length⟩ st.doc) =
          ⟨ch.fromB, min st.doc.length ch.toB, ins, st.doc.length⟩ :=
      fun ins => invertChange_invertChange _ st.doc h1 h2 rfl
    refine ⟨mergeState_eq _ _ ?_ ?_ ?_, mergeState_eq _ _ ?_ ?_ ?_, ?_⟩
    · simp [applyTransaction, applyChangesOpt, undoTransaction, invertedChunkEffects]
    · simp [applyTransaction, undoTransaction, invertedChunkEffects, updateOriginalDocField]
    · simp only [applyTransaction, undoTransaction, invertedChunkEffects, List.foldr,
        computeChunksUpdate, updateOriginalDocField, List.foldl, applyChangesOpt,
        findUpdateOriginalDoc, findAcceptChunkEffect, findRejectChunkEffect,
        findGenerateCodeEffect, List.findSome?_cons, Option.map_none, Transaction.docChanged,
        Chunk.updateA, Chunk.updateB]
      simp [hb.symm]
    · simp only [applyTransaction, undoTransaction, invertedChunkEffects, List.foldr,
        applyChangesOpt, Option.map_some]
      exact hrt _
    · simp [applyTransaction, undoTransaction, invertedChunkEffects, updateOriginalDocField]
    · simp [applyTransaction, undoTransaction, invertedChunkEffects, computeChunksUpdate,
        updateOriginalDocField, applyChangesOpt, findUpdateOriginalDoc, findAcceptChunkEffect,
        findRejectChunkEffect, findGenerateCodeEffect, Transaction.docChanged,
        Chunk.updateA, Chunk.updateB, hrt, hb.symm]
    · simp [applyTransaction, undoTransaction, invertedChunkEffects, applyChangesOpt, hinv]

/-- C1 counterexample: the recorded inverse of a concrete accept operation is
an updateOriginalDoc effect; the inverted-effects function records no inverse
for it, so the inverse of the inverse of the accept is an empty effect list,
not the accept operation itself. -/
theorem c1_undo_roundtrip_cex :
    acceptChunk c1State 0 = some c1TrA ∧
    c1TrA.effects ≠ [] ∧
    invertedChunkEffects (applyTransaction 500 c1State c1TrA)
      (undoTransaction c1State c1TrA) = [] := by
  decide

/-- Witness for C1's amended theorem at a concrete state. -/
theorem c1_undo_roundtrip_w :
    applyTransaction 500 (applyTransaction 500 c1State c1TrA)
      (undoTransaction c1State c1TrA) = c1State ∧
    applyTransaction 500 (applyTransaction 500 c1State c1TrR)
      (undoTransaction c1State c1TrR) = c1State ∧
    invertedChunkEffects (applyTransaction 500 c1State c1TrR)
      (undoTransaction c1State c1TrR) = c1TrR.effects :=
  c1_undo_roundtrip 500 c1State 0 c1TrA c1TrR (by decide) (by decide) (by decide) (by decide)

/-- opsA distributes over append. -/
theorem opsA_append (xs ys : List LineOp) : opsA (xs ++ ys) = opsA xs ++ opsA ys := by
  induction xs with
  | nil => rfl
  | cons op ops ih => cases op <;> simp [opsA, ih]

/-- opsB distributes over append. -/
theorem opsB_append (xs ys : List LineOp) : opsB (xs ++ ys) = opsB xs ++ opsB ys := by
  induction xs with
  | nil => rfl
  | cons op ops ih => cases op <;> simp [opsB, ih]

/-- opsA of a pure keep script is its lines. -/
theorem opsA_map_keep (xs : List Line) : opsA (xs.map LineOp.keep) = xs := by
  induction xs with
  | nil => rfl
  | cons x xs ih => simp [opsA, ih]

/-- opsA of a pure deletion script is its lines. -/
theorem opsA_map_del (xs : List Line) : opsA (xs.map LineOp.del) = xs := by
  induction xs with
  | nil => rfl
  | cons x xs ih => simp [opsA, ih]

/-- opsA of a pure insertion script is empty. -/
theorem opsA_map_ins (xs : List Line) : opsA (xs.map LineOp.ins) = [] := by
  induction xs with
  | nil => rfl
  | cons x xs ih => simp [opsA, ih]

/-- opsB of a pure keep script is its lines. -/
theorem opsB_map_keep (xs : List Line) : opsB (xs.map LineOp.keep) = xs := by
  induction xs with
  | nil => rfl
  | cons x xs ih => simp [opsB, ih]

/-- opsB of a pure deletion script is empty. -/
theorem opsB_map_del (xs : List Line) : opsB (xs.map LineOp.del) = [] := by
  induction xs with
  | nil => rfl
  | cons x xs ih => simp [opsB, ih]

/-- opsB of a pure insertion script is its lines. -/
theorem opsB_map_ins (xs : List Line) : opsB (xs.map LineOp.ins) = xs := by
  induction xs with
  | nil => rfl
  | cons x xs ih => simp [opsB, ih]

/-- The fuelled shortest edit script replays to exactly its two inputs. -/
theorem diffOpsF_replay (n : Nat) : ∀ xs ys,
    opsA (diffOpsF n xs ys) = xs ∧ opsB (diffOpsF n xs ys) = ys := by
  induction n with
  | zero =>
    intro xs ys
    constructor <;>
      simp [diffOpsF, opsA_append, opsB_append, opsA_map_del, opsA_map_ins,
        opsB_map_del, opsB_map_ins]
  | succ n ih =>
    intro xs ys
    match xs, ys with
    | [], ys =>
      constructor <;> simp [diffOpsF, opsA_map_ins, opsB_map_ins]
    | x :: xs, [] =>
      constructor <;> simp [diffOpsF, opsA, opsB, opsA_map_del, opsB_map_del]
    | x :: xs, y :: ys =>
      by_cases hxy : x = y
      · subst hxy
        have h := ih xs ys
        constructor <;> simp [diffOpsF, opsA, opsB, h.1, h.2]
      · by_cases hc : editDistF n xs (y :: ys) ≤ editDistF n (x :: xs) ys
        · have h := ih xs (y :: ys)
          constructor <;> simp [diffOpsF, hxy, hc, opsA, opsB, h.1, h.2]
        · have h := ih (x :: xs) ys
          constructor <;> simp [diffOpsF, hxy, hc, opsA, opsB, h.1, h.2]

/-- The common prefix length is at most the first list's length. -/
theorem commonPrefixLen_le_left : ∀ xs ys : List Line, commonPrefixLen xs ys ≤ xs.length := by
  intro xs
  induction xs with
  | nil => intro ys; cases ys <;> simp [commonPrefixLen]
  | cons x xs ih =>
    intro ys
    cases ys with
    | nil => simp [commonPrefixLen]
    | cons y ys =>
      by_cases hxy : x = y
      · simp only [commonPrefixLen, if_pos hxy, List.length_cons]
        exact Nat.succ_le_succ (ih ys)
      · simp [commonPrefixLen, hxy]

/-- The common prefix length is at most the second list's length. -/
theorem commonPrefixLen_le_right : ∀ xs ys : List Line, commonPrefixLen xs ys ≤ ys.length := by
  intro xs
  induction xs with
  | nil => intro ys; cases ys <;> simp [commonPrefixLen]
  | cons x xs ih =>
    intro ys
    cases ys with
    | nil => simp [commonPrefixLen]
    | cons y ys =>
      by_cases hxy : x = y
      · simp only [commonPrefixLen, if_pos hxy, List.length_cons]
        exact Nat.succ_le_succ (ih ys)
      · simp [commonPrefixLen, hxy]

/-- Both lists agree on their common prefix. -/
theorem commonPrefixLen_take : ∀ xs ys : List Line,
    xs.take (commonPrefixLen xs ys) = ys.take (commonPrefixLen xs ys) := by
  intro xs
  induction xs with
  | nil => intro ys; cases ys <;> simp [commonPrefixLen]
  | cons x xs ih =>
    intro ys
    cases ys with
    | nil => simp [commonPrefixLen]
    | cons y ys =>
      by_cases hxy : x = y
      · subst hxy
        simp [commonPrefixLen, ih ys]
      · simp [commonPrefixLen, hxy]

/-- Both lists agree on their common suffix. -/
theorem commonSuffixLen_drop (xs ys : List Line) :
    xs.drop (xs.length - commonSuffixLen xs ys) =
      ys.drop (ys.length - commonSuffixLen xs ys) := by
  have h := commonPrefixLen_take xs.reverse ys.reverse
  unfold commonSuffixLen
  apply List.reverse_injective
  rw [← List.take_reverse, ← List.take_reverse]
  exact h

/-- The diff (with trimming and the scanLimit fallback) replays to exactly
its two input line lists. -/
theorem diffLines_replay (aL bL : List Line) (lim : Nat) :
    opsA (diffLines aL bL lim) = aL ∧ opsB (diffLines aL bL lim) = bL := by
  have hmidA : opsA (if lim < editDist (midA aL bL) (midB aL bL)
      then (midA aL bL).map LineOp.del ++ (midB aL bL).map LineOp.ins
      else diffOps (midA aL bL) (midB aL bL)) = midA aL bL := by
    split
    · rw [opsA_append, opsA_map_del, opsA_map_ins, List.append_nil]
    · exact (diffOpsF_replay _ _ _).1
  have hmidB : opsB (if lim < editDist (midA aL bL) (midB aL bL)
      then (midA aL bL).map LineOp.del ++ (midB aL bL).map LineOp.ins
      else diffOps (midA aL bL) (midB aL bL)) = midB aL bL := by
    split
    · rw [opsB_append, opsB_map_del, opsB_map_ins, List.nil_append]
    · exact (diffOpsF_replay _ _ _).2
  have hsufAB : sufA aL bL = sufB aL bL := by
    unfold sufA sufB trimSuffixLen
    exact commonSuffixLen_drop (aL.drop (trimPrefixLen aL bL)) (bL.drop (trimPrefixLen aL bL))
  constructor
  · unfold diffLines
    rw [opsA_append, opsA_append, opsA_map_keep, opsA_map_keep, hmidA]
    show aL.take (trimPrefixLen aL bL) ++ midA aL bL ++ sufA aL bL = aL
    rw [List.append_assoc]
    unfold midA sufA
    rw [List.take_append_drop, List.take_append_drop]
  · unfold diffLines
    rw [opsB_append, opsB_append, opsB_map_keep, opsB_map_keep, hmidB, hsufAB]
    show aL.take (trimPrefixLen aL bL) ++ midB aL bL ++ sufB aL bL = bL
    rw [List.append_assoc]
    rw [show aL.take (trimPrefixLen aL bL) = bL.take (trimPrefixLen aL bL) from
      commonPrefixLen_take aL bL]
    unfold midB sufB
    rw [List.take_append_drop, List.take_append_drop]

/-- If dropping n elements exposes head l, then dropping one more removes it
and the element at index n is l. -/
theorem drop_head_tail (xs : List Line) (n : Nat) (l : Line) (rest : List Line)
    (h : xs.drop n = l :: rest) : xs.drop (n + 1) = rest ∧ xs[n]? = some l := by
  constructor
  · rw [← List.tail_drop, h]
    rfl
  · have h0 : (xs.drop n)[0]? = some l := by rw [h]; simp
    rw [List.getElem?_drop] at h0
    simpa using h0

/-- Every chunk the walk produces starts at or after the pending run start
(respectively the cursors), and is well formed (its start does not exceed its
end on either side). -/
theorem chunkWalkGo_ge (ops : List LineOp) : ∀ (ca cb : Nat),
    (∀ sa sb c, sa ≤ ca → sb ≤ cb → c ∈ chunkWalkGo ops ca cb (some (sa, sb)) →
      sa ≤ c.laF ∧ sb ≤ c.lbF ∧ c.laF ≤ c.laT ∧ c.lbF ≤ c.lbT) ∧
    (∀ c, c ∈ chunkWalkGo ops ca cb none →
      ca ≤ c.laF ∧ cb ≤ c.lbF ∧ c.laF ≤ c.laT ∧ c.lbF ≤ c.lbT) := by
  induction ops with
  | nil =>
    intro ca cb
    constructor
    · intro sa sb c hsa hsb hc
      simp only [chunkWalkGo, List.mem_singleton] at hc
      subst hc
      exact ⟨le_refl _, le_refl _, hsa, hsb⟩
    · intro c hc
      simp [chunkWalkGo] at hc
  | cons op ops ih =>
    intro ca cb
    cases op with
    | keep l =>
      constructor
      · intro sa sb c hsa hsb hc
        simp only [chunkWalkGo, List.mem_cons] at hc
        rcases hc with rfl | hc
        · exact ⟨le_refl _, le_refl _, hsa, hsb⟩
        · have h := (ih (ca + 1) (cb + 1)).2 c hc
          exact ⟨by omega, by omega, h.2.2.1, h.2.2.2⟩
      · intro c hc
        simp only [chunkWalkGo] at hc
        have h := (ih (ca + 1) (cb + 1)).2 c hc
        exact ⟨by omega, by omega, h.2.2.1, h.2.2.2⟩
    | del l =>
      constructor
      · intro sa sb c hsa hsb hc
        simp only [chunkWalkGo] at hc
        exact (ih (ca + 1) cb).1 sa sb c (by omega) hsb hc
      · intro c hc
        simp only [chunkWalkGo] at hc
        exact (ih (ca + 1) cb).1 ca cb c (by omega) (le_refl _) hc
    | ins l =>
      constructor
      · intro sa sb c hsa hsb hc
        simp only [chunkWalkGo] at hc
        exact (ih ca (cb + 1)).1 sa sb c hsa (by omega) hc
      · intro c hc
        simp only [chunkWalkGo] at hc
        exact (ih ca (cb + 1)).1 ca cb c (le_refl _) (by omega) hc

/-- When the edit script replays to the suffixes of the two line lists past
the cursors, the chunks the walk produces are chained by sepL: ordered with a
gap in both coordinate spaces and, right after each chunk, an unchanged
line. -/
theorem chunkWalkGo_chain (aL bL : List Line) (ops : List LineOp) : ∀ (ca cb : Nat),
    opsA ops = aL.drop ca → opsB ops = bL.drop cb →
    (∀ sa sb, List.Chain' (sepL aL bL) (chunkWalkGo ops ca cb (some (sa, sb)))) ∧
    List.Chain' (sepL aL bL) (chunkWalkGo ops ca cb none) := by
  induction ops with
  | nil =>
    intro ca cb hA hB
    constructor
    · intro sa sb
      simp [chunkWalkGo]
    · simp [chunkWalkGo]
  | cons op ops ih =>
    intro ca cb hA hB
    cases op with
    | keep l =>
      have hA0 : aL.drop ca = l :: opsA ops := by rw [← hA]; rfl
      have hB0 : bL.drop cb = l :: opsB ops := by rw [← hB]; rfl
      obtain ⟨hA2, hgetA⟩ := drop_head_tail aL ca l (opsA ops) hA0
      obtain ⟨hB2, hgetB⟩ := drop_head_tail bL cb l (opsB ops) hB0
      have hrec := ih (ca + 1) (cb + 1) hA2.symm hB2.symm
      constructor
      · intro sa sb
        show List.Chain' (sepL aL bL)
          (⟨sa, ca, sb, cb⟩ :: chunkWalkGo ops (ca + 1) (cb + 1) none)
        rw [List.chain'_cons']
        constructor
        · intro y hy
          have hymem : y ∈ chunkWalkGo ops (ca + 1) (cb + 1) none :=
            List.mem_of_mem_head? hy
          have hb := (chunkWalkGo_ge ops (ca + 1) (cb + 1)).2 y hymem
          obtain ⟨hb1, hb2, _, _⟩ := hb
          exact ⟨show ca < y.laF by omega, show cb < y.lbF by omega, l, hgetA, hgetB⟩
        · exact hrec.2
      · show List.Chain' (sepL aL bL) (chunkWalkGo ops (ca + 1) (cb + 1) none)
        exact hrec.2
    | del l =>
      have hA0 : aL.drop ca = l :: opsA ops := by rw [← hA]; rfl
      obtain ⟨hA2, _⟩ := drop_head_tail aL ca l (opsA ops) hA0
      have hrec := ih (ca + 1) cb hA2.symm hB
      constructor
      · intro sa sb
        show List.Chain' (sepL aL bL) (chunkWalkGo ops (ca + 1) cb (some (sa, sb)))
        exact hrec.1 sa sb
      · show List.Chain' (sepL aL bL) (chunkWalkGo ops (ca + 1) cb (some (ca, cb)))
        exact hrec.1 ca cb
    | ins l =>
      have hB0 : bL.drop cb = l :: opsB ops := by rw [← hB]; rfl
      obtain ⟨hB2, _⟩ := drop_head_tail bL cb l (opsB ops) hB0
      have hrec := ih ca (cb + 1) hA hB2.symm
      constructor
      · intro sa sb
        show List.Chain' (sepL aL bL) (chunkWalkGo ops ca (cb + 1) (some (sa, sb)))
        exact hrec.1 sa sb
      · show List.Chain' (sepL aL bL) (chunkWalkGo ops ca (cb + 1) (some (ca, cb)))
        exact hrec.1 ca cb

/-- lineStart on the empty line list is the identity. -/
theorem lineStart_nil : ∀ n, lineStart [] n = n := by
  intro n
  cases n <;> rfl

/-- lineStart is strictly monotone. -/
theorem lineStart_lt (ls : List Line) : ∀ m n, m < n → lineStart ls m < lineStart ls n := by
  induction ls with
  | nil =>
    intro m n h
    rw [lineStart_nil, lineStart_nil]
    exact h
  | cons l ls ih =>
    intro m n h
    cases n with
    | zero => omega
    | succ n =>
      cases m with
      | zero =>
        simp only [lineStart]
        omega
      | succ m =>
        simp only [lineStart]
        have := ih m n (by omega)
        omega

/-- lineStart is monotone. -/
theorem lineStart_le (ls : List Line) (m n : Nat) (h : m ≤ n) :
    lineStart ls m ≤ lineStart ls n := by
  cases Nat.eq_or_lt_of_le h with
  | inl he => rw [he]
  | inr hlt => exact le_of_lt (lineStart_lt ls m n hlt)

/-- The line-level chunk list of a build is chained by sepL. -/
theorem buildL_chain (aL bL : List Line) (lim : Nat) :
    List.Chain' (sepL aL bL) (buildL aL bL lim) := by
  have h := diffLines_replay aL bL lim
  exact (chunkWalkGo_chain aL bL (diffLines aL bL lim) 0 0
    (by simpa using h.1) (by simpa using h.2)).2

/-- The character-level chunk list of a build is sorted with strict gaps in
both coordinate spaces. -/
theorem build_chain (a b : Doc) (conf : Nat) :
    List.Chain' (fun c d : Chunk => c.toA < d.fromA ∧ c.toB < d.fromB)
      (Chunk.build a b conf) := by
  unfold Chunk.build
  rw [List.chain'_map]
  refine List.Chain'.imp ?_ (buildL_chain (linesOf a) (linesOf b) conf)
  intro x y hxy
  exact ⟨lineStart_lt _ _ _ hxy.1, lineStart_lt _ _ _ hxy.2.1⟩

/-- Every chunk a build produces is well formed: its start does not exceed
its end in either coordinate space. -/
theorem build_wf (a b : Doc) (conf : Nat) :
    ∀ c ∈ Chunk.build a b conf, c.fromA ≤ c.toA ∧ c.fromB ≤ c.toB := by
  intro c hc
  unfold Chunk.build at hc
  rw [List.mem_map] at hc
  obtain ⟨x, hx, rfl⟩ := hc
  have h := (chunkWalkGo_ge (diffLines (linesOf a) (linesOf b) conf) 0 0).2 x hx
  exact ⟨lineStart_le _ _ _ h.2.2.1, lineStart_le _ _ _ h.2.2.2⟩

/-- Every transaction maps a chunk list that is a full build for some
document pair to a chunk list that is again a full build for some pair. -/
theorem computeChunks_build_closed (conf : Nat) (st : MergeState) (tr : Transaction)
    (h : ∃ a0 b0, st.chunks = Chunk.build a0 b0 conf) :
    ∃ a1 b1, (applyTransaction conf st tr).chunks = Chunk.build a1 b1 conf := by
  obtain ⟨a0, b0, h0⟩ := h
  show ∃ a1 b1, computeChunksUpdate conf st tr = Chunk.build a1 b1 conf
  simp only [computeChunksUpdate, Chunk.updateA, Chunk.updateB]
  repeat' split
  all_goals first
    | exact ⟨_, _, rfl⟩
    | exact ⟨a0, b0, h0⟩

/-- C7: the chunk list produced by a full build is sorted with a strict gap
between distinct chunks in both the A and B coordinate spaces (hence pairwise
non-overlapping), chunks are individually well formed, adjacent changed runs
are merged so that consecutive chunks are separated by at least one unchanged
line (the sepL chain at line granularity exhibits that line), and every
transaction — updateA, updateB, accept, reject, or rebuild — carries a chunk
list that is a full build to another full build, so the invariants hold after
the initial build and after every update. -/
theorem c7_chunk_invariants (conf : Nat) (a b : Doc) (st : MergeState) (tr : Transaction)
    (h : ∃ a0 b0, st.chunks = Chunk.build a0 b0 conf) :
    List.Chain' (sepL (linesOf a) (linesOf b)) (buildL (linesOf a) (linesOf b) conf) ∧
    List.Chain' (fun c d : Chunk => c.toA < d.fromA ∧ c.toB < d.fromB)
      (Chunk.build a b conf) ∧
    (∀ c ∈ Chunk.build a b conf, c.fromA ≤ c.toA ∧ c.fromB ≤ c.toB) ∧
    ∃ a1 b1, (applyTransaction conf st tr).chunks = Chunk.build a1 b1 conf :=
  ⟨buildL_chain _ _ _, build_chain a b conf, build_wf a b conf,
    computeChunks_build_closed conf st tr h⟩

/-- Witness for C7 at a concrete document pair and transaction. -/
theorem c7_chunk_invariants_w :
    List.Chain' (sepL (linesOf "a".toList) (linesOf "b".toList))
      (buildL (linesOf "a".toList) (linesOf "b".toList) 500) ∧
    List.Chain' (fun c d : Chunk => c.toA < d.fromA ∧ c.toB < d.fromB)
      (Chunk.build "a".toList "b".toList 500) ∧
    (∀ c ∈ Chunk.build "a".toList "b".toList 500, c.fromA ≤ c.toA ∧ c.fromB ≤ c.toB) ∧
    ∃ a1 b1, (applyTransaction 500 c7State c7Tr).chunks = Chunk.build a1 b1 500 :=
  c7_chunk_invariants 500 "a".toList "b".toList c7State c7Tr ⟨"a".toList, "b".toList, rfl⟩

/-- Walking a keep run advances both cursors. -/
theorem chunkWalkGo_keeps_none (xs : List Line) : ∀ (ops : List LineOp) (ca cb : Nat),
    chunkWalkGo (xs.map LineOp.keep ++ ops) ca cb none =
      chunkWalkGo ops (ca + xs.length) (cb + xs.length) none := by
  induction xs with
  | nil =>
    intro ops ca cb
    simp
  | cons x xs ih =>
    intro ops ca cb
    show chunkWalkGo (xs.map LineOp.keep ++ ops) (ca + 1) (cb + 1) none = _
    rw [ih]
    rw [show ca + 1 + xs.length = ca + (x :: xs).length from by simp; omega]
    rw [show cb + 1 + xs.length = cb + (x :: xs).length from by simp; omega]

/-- Walking a deletion run inside a pending run advances the A cursor. -/
theorem chunkWalkGo_dels_some (xs : List Line) : ∀ (ops : List LineOp) (ca cb sa sb : Nat),
    chunkWalkGo (xs.map LineOp.del ++ ops) ca cb (some (sa, sb)) =
      chunkWalkGo ops (ca + xs.length) cb (some (sa, sb)) := by
  induction xs with
  | nil =>
    intro ops ca cb sa sb
    simp
  | cons x xs ih =>
    intro ops ca cb sa sb
    show chunkWalkGo (xs.map LineOp.del ++ ops) (ca + 1) cb (some (sa, sb)) = _
    rw [ih]
    rw [show ca + 1 + xs.length = ca + (x :: xs).length from by simp; omega]

/-- Walking an insertion run inside a pending run advances the B cursor. -/
theorem chunkWalkGo_inss_some (xs : List Line) : ∀ (ops : List LineOp) (ca cb sa sb : Nat),
    chunkWalkGo (xs.map LineOp.ins ++ ops) ca cb (some (sa, sb)) =
      chunkWalkGo ops ca (cb + xs.length) (some (sa, sb)) := by
  induction xs with
  | nil =>
    intro ops ca cb sa sb
    simp
  | cons x xs ih =>
    intro ops ca cb sa sb
    show chunkWalkGo (xs.map LineOp.ins ++ ops) ca (cb + 1) (some (sa, sb)) = _
    rw [ih]
    rw [show cb + 1 + xs.length = cb + (x :: xs).length from by simp; omega]

/-- Walking a pure keep script with no pending run produces no chunks. -/
theorem chunkWalkGo_keeps_nil (xs : List Line) : ∀ (ca cb : Nat),
    chunkWalkGo (xs.map LineOp.keep) ca cb none = [] := by
  induction xs with
  | nil =>
    intro ca cb
    rfl
  | cons x xs ih =>
    intro ca cb
    show chunkWalkGo (xs.map LineOp.keep) (ca + 1) (cb + 1) none = []
    exact ih (ca + 1) (cb + 1)

/-- Walking a pure keep script with a pending run emits exactly that run. -/
theorem chunkWalkGo_keeps_end (xs : List Line) (ca cb sa sb : Nat) :
    chunkWalkGo (xs.map LineOp.keep) ca cb (some (sa, sb)) = [⟨sa, ca, sb, cb⟩] := by
  cases xs with
  | nil => rfl
  | cons x xs =>
    show ⟨sa, ca, sb, cb⟩ :: chunkWalkGo (xs.map LineOp.keep) (ca + 1) (cb + 1) none = _
    rw [chunkWalkGo_keeps_nil]

/-- C8: the diff is a total function, and whenever the cost of the fine
edit-script search on the trimmed middle region exceeds scanLimit the build
yields exactly one chunk covering the entire untrimmed differing region of
both documents. -/
theorem c8_scanlimit_fallback (a b : Doc) (scanLimit : Nat)
    (hpos : 0 < scanLimit)
    (hex : scanLimit < editDist (midA (linesOf a) (linesOf b)) (midB (linesOf a) (linesOf b))) :
    buildL (linesOf a) (linesOf b) scanLimit =
      [⟨trimPrefixLen (linesOf a) (linesOf b),
        trimPrefixLen (linesOf a) (linesOf b) + (midA (linesOf a) (linesOf b)).length,
        trimPrefixLen (linesOf a) (linesOf b),
        trimPrefixLen (linesOf a) (linesOf b) + (midB (linesOf a) (linesOf b)).length⟩] ∧
    Chunk.build a b scanLimit =
      [⟨lineStart (linesOf a) (trimPrefixLen (linesOf a) (linesOf b)),
        lineStart (linesOf a)
          (trimPrefixLen (linesOf a) (linesOf b) + (midA (linesOf a) (linesOf b)).length),
        lineStart (linesOf b) (trimPrefixLen (linesOf a) (linesOf b)),
        lineStart (linesOf b)
          (trimPrefixLen (linesOf a) (linesOf b) + (midB (linesOf a) (linesOf b)).length)⟩] := by
  have hlp : ((linesOf a).take (trimPrefixLen (linesOf a) (linesOf b))).length =
      trimPrefixLen (linesOf a) (linesOf b) := by
    rw [List.length_take]
    exact Nat.min_eq_left (commonPrefixLen_le_left (linesOf a) (linesOf b))
  have hmain : buildL (linesOf a) (linesOf b) scanLimit =
      [⟨trimPrefixLen (linesOf a) (linesOf b),
        trimPrefixLen (linesOf a) (linesOf b) + (midA (linesOf a) (linesOf b)).length,
        trimPrefixLen (linesOf a) (linesOf b),
        trimPrefixLen (linesOf a) (linesOf b) + (midB (linesOf a) (linesOf b)).length⟩] := by
    unfold buildL diffLines
    rw [if_pos hex, List.append_assoc, chunkWalkGo_keeps_none, hlp, List.append_assoc]
    simp only [Nat.zero_add]
    cases hmA : midA (linesOf a) (linesOf b) with
    | nil =>
      cases hmB : midB (linesOf a) (linesOf b) with
      | nil =>
        rw [hmA, hmB] at hex
        simp [editDist, editDistF] at hex
      | cons y mB =>
        simp only [List.map_nil, List.nil_append, List.map_cons, chunkWalkGo, List.append_eq]
        rw [chunkWalkGo_inss_some, chunkWalkGo_keeps_end]
        simp only [List.cons.injEq, LChunk.mk.injEq, List.length_nil, List.length_cons,
          and_true, true_and]
        omega
    | cons x mA =>
      simp only [List.map_cons, List.cons_append, chunkWalkGo, List.append_eq]
      rw [chunkWalkGo_dels_some, chunkWalkGo_inss_some, chunkWalkGo_keeps_end]
      simp only [List.cons.injEq, LChunk.mk.injEq, List.length_cons, and_true, true_and]
      omega
  refine ⟨hmain, ?_⟩
  unfold Chunk.build
  rw [hmain]
  rfl

/-- Witness for C8: with scanLimit 1 and two three-line documents with no
common lines, the fine search is abandoned and the build yields a single
whole-region chunk. -/
theorem c8_scanlimit_fallback_w :
    buildL (linesOf c8A) (linesOf c8B) 1 =
      [⟨trimPrefixLen (linesOf c8A) (linesOf c8B),
        trimPrefixLen (linesOf c8A) (linesOf c8B) + (midA (linesOf c8A) (linesOf c8B)).length,
        trimPrefixLen (linesOf c8A) (linesOf c8B),
        trimPrefixLen (linesOf c8A) (linesOf c8B) +
          (midB (linesOf c8A) (linesOf c8B)).length⟩] ∧
    Chunk.build c8A c8B 1 =
      [⟨lineStart (linesOf c8A) (trimPrefixLen (linesOf c8A) (linesOf c8B)),
        lineStart (linesOf c8A)
          (trimPrefixLen (linesOf c8A) (linesOf c8B) +
            (midA (linesOf c8A) (linesOf c8B)).length),
        lineStart (linesOf c8B) (trimPrefixLen (linesOf c8A) (linesOf c8B)),
        lineStart (linesOf c8B)
          (trimPrefixLen (linesOf c8A) (linesOf c8B) +
            (midB (linesOf c8A) (linesOf c8B)).length)⟩] :=
  c8_scanlimit_fallback c8A c8B 1 (by decide) (by decide)

end CodemirrorMerge
